import Mathlib

/-!
Verification of the circular buffer `ring<T>` from `src/ring.hpp`
(repository virtualmatador/ring) against its natural-language
specification.

The class is embedded shallowly: pointers into the single allocation
are represented as offsets from the allocation base, so `data_end_`
corresponds to the offset `capacity`, the base `data_end_ - capacity_`
to offset `0`, and the fields `lower_bond_` / `upper_bond_` to the
natural numbers `lower_bond` / `upper_bond`.  The raw storage is a
total function `buf : Nat → α`; slots outside the live region hold
unspecified values, which models uninitialized memory (destruction of
a C++ object leaves the slot's modelled value in place, exactly as the
byte contents survive a destructor call).
-/

namespace RingBuf

/-- State of a `ring<T>` object (fields of the C++ class, lines 10-14 of
`ring.hpp`), with pointers replaced by offsets from the allocation base. -/
structure ring (α : Type) where
  capacity : Nat
  buf : Nat → α
  lower_bond : Nat
  upper_bond : Nat

/-- Sized constructor (lines 28-34): `lower_bond_ = data_end_ - capacity_`
is offset `0`, `upper_bond_ = data_end_` is offset `capacity`.  The fresh
allocation's contents are the arbitrary function `f`. -/
def mkRing (c : Nat) (f : Nat → α) : ring α :=
  { capacity := c, buf := f, lower_bond := 0, upper_bond := c }

/-- Default constructor (lines 18-24): capacity `0`, all pointers null;
as offsets from the (absent) base, everything is `0`.  The storage
function `f` is arbitrary since there is no storage. -/
def ring0 (f : Nat → α) : ring α :=
  { capacity := 0, buf := f, lower_bond := 0, upper_bond := 0 }

/-- `full()` (lines 57-60): `upper_bond_ == lower_bond_`. -/
def full (r : ring α) : Bool := r.upper_bond == r.lower_bond

/-- `empty()` (lines 92-95): `upper_bond_ == data_end_`. -/
def empty (r : ring α) : Bool := r.upper_bond == r.capacity

/-- `unset_empty()` (lines 226-233): if the ring is in the empty-sentinel
state, reset both bounds to the allocation base. -/
def unset_empty (r : ring α) : ring α :=
  if r.upper_bond = r.capacity then
    { r with upper_bond := 0, lower_bond := 0 }
  else r

/-- Point update of the storage function: placement-`new` of value `v`
into slot `j`. -/
def upd (f : Nat → α) (j : Nat) (v : α) : Nat → α :=
  fun i => if i = j then v else f i

/-- Body shared by the single push (lines 69-73) and by each iteration of
the range-push loop (lines 83-87): construct the value at `upper_bond_`,
advance `upper_bond_`, and wrap it to the base when it reaches
`data_end_`. -/
def writeStep (r : ring α) (x : α) : ring α :=
  { r with
    buf := upd r.buf r.upper_bond x,
    upper_bond := if r.upper_bond + 1 = r.capacity then 0 else r.upper_bond + 1 }

/-- `push(TT&&)` (lines 64-74): `unset_empty()` then write-and-advance. -/
def push (r : ring α) (x : α) : ring α := writeStep (unset_empty r) x

/-- `push(const T*, const T*)` (lines 78-89): `unset_empty()` once, then
the write-and-advance loop, one iteration per range element.  `vals` is
the sequence of values actually constructed by the loop (note that line
83 constructs `T{ begin++ }` from the iterator pointer, not from the
element `*begin`; the pointer bookkeeping is independent of the values
stored, so it is modelled for an arbitrary stored-value sequence). -/
def pushRange (r : ring α) (vals : List α) : ring α :=
  vals.foldl writeStep (unset_empty r)

/-- `pop()` (lines 99-112): move the front element out, advance
`lower_bond_` (wrapping at `data_end_`), and restore the empty sentinel
when the bounds meet. -/
def pop (r : ring α) : α × ring α :=
  let item := r.buf r.lower_bond
  let l2 := if r.lower_bond + 1 = r.capacity then 0 else r.lower_bond + 1
  let u2 := if l2 = r.upper_bond then r.capacity else r.upper_bond
  (item, { r with lower_bond := l2, upper_bond := u2 })

/-- `size()` (lines 203-217). -/
def size (r : ring α) : Nat :=
  if r.upper_bond ≠ r.capacity then
    if r.upper_bond > r.lower_bond then r.upper_bond - r.lower_bond
    else r.upper_bond + r.capacity - r.lower_bond
  else 0

/-- `data()` (lines 116-134): the two spans, each a pair of offsets
(begin, end).  The null second span `{nullptr, nullptr}` is the offset
pair `(0, 0)`, which likewise describes zero elements. -/
def data (r : ring α) : (Nat × Nat) × (Nat × Nat) :=
  if r.lower_bond > r.upper_bond then
    ((r.lower_bond, r.capacity), (0, r.upper_bond))
  else
    ((r.lower_bond, r.upper_bond), (0, 0))

/-- Contents of the half-open slot interval `[a, b)` of a storage
function. -/
def segment (f : Nat → α) (a b : Nat) : List α :=
  (List.range (b - a)).map fun i => f (a + i)

/-- Total number of elements described by the two spans of `data()`. -/
def dataLen (r : ring α) : Nat :=
  ((data r).1.2 - (data r).1.1) + ((data r).2.2 - (data r).2.1)

/-- Concatenated contents of the two spans of `data()`. -/
def dataList (r : ring α) : List α :=
  segment r.buf (data r).1.1 (data r).1.2 ++
    segment r.buf (data r).2.1 (data r).2.2

/-- Abstraction function: the live elements in front-to-back order, read
off the representation the way the class itself reads them (empty
sentinel, unwrapped run, or two wrapped runs). -/
def toList (r : ring α) : List α :=
  if r.upper_bond = r.capacity then []
  else if r.lower_bond < r.upper_bond then
    segment r.buf r.lower_bond r.upper_bond
  else
    segment r.buf r.lower_bond r.capacity ++ segment r.buf 0 r.upper_bond

/-- Representation invariant maintained by every reachable state:
`upper_bond` stays within `[0, capacity]` (`capacity` being the empty
sentinel), and `lower_bond` stays a valid slot index whenever there is
storage. -/
def Inv (r : ring α) : Prop :=
  r.upper_bond ≤ r.capacity ∧
  (r.capacity = 0 → r.lower_bond = 0 ∧ r.upper_bond = 0) ∧
  (0 < r.capacity → r.lower_bond < r.capacity)

instance (r : ring α) : Decidable (Inv r) := by
  unfold Inv; infer_instance

/-- `reserve(size)` (lines 137-200).  `fresh` is the contents of the new
allocation as returned by the allocator (uninitialized).  The two move
loops are rendered as `segment`s of the old storage: the first loop
moves `[lower_bond_, fu.1)`, the second `[start2, fu.2)` after the
wrap-reset of `lower_bond_`; destructor calls do not change modelled
slot contents.  The final assignments (lines 186, 196-198) set
`upper_bond_ = it` (the number of moved elements), `capacity_ = size`,
`lower_bond_ = data` (offset 0). -/
def reserve (r : ring α) (n : Nat) (fresh : Nat → α) : ring α :=
  if r.capacity = n then r
  else if r.upper_bond ≠ r.capacity then
    let first := if r.lower_bond < r.upper_bond then r.upper_bond else r.capacity
    let fu :=
      if first - r.lower_bond > n then
        (r.lower_bond + n, r.lower_bond + n)
      else if r.lower_bond ≥ r.upper_bond ∧
          r.capacity - (r.lower_bond - r.upper_bond) > n then
        (first, r.lower_bond - (r.capacity - n))
      else
        (first, r.upper_bond)
    let start2 := if fu.1 > fu.2 then 0 else fu.1
    let moved := segment r.buf r.lower_bond fu.1 ++ segment r.buf start2 fu.2
    { capacity := n,
      buf := fun i => moved.getD i (fresh i),
      lower_bond := 0,
      upper_bond := moved.length }
  else
    { capacity := n, buf := fresh, lower_bond := 0, upper_bond := n }

/-- `reserve` with the allocator's response made explicit (line 141 is
the first statement of the mutating branch: `allocator.allocate(size)`
runs before any member is written or any element moved/destroyed, and
is skipped when `size == 0`).  `alloc = none` models a throwing
allocation: the exception propagates and the object still holds every
pre-call field value.  The returned flag is `true` on normal return. -/
def reserveTry (r : ring α) (n : Nat) (alloc : Option (Nat → α)) :
    ring α × Bool :=
  if r.capacity = n then (r, true)
  else if n = 0 then (reserve r 0 r.buf, true)
  else
    match alloc with
    | none => (r, false)
    | some f => (reserve r n f, true)

/-- Sized constructor with the allocator's response made explicit (line
30 allocates before any other initialization): on allocation failure no
object is produced. -/
def mkRingTry (c : Nat) (alloc : Option (Nat → α)) : Option (ring α) :=
  match alloc with
  | none => none
  | some f => some (mkRing c f)

/-- A single client call: `push(x)` or `pop()`. -/
inductive Op (α : Type) where
  | push (x : α)
  | pop

/-- A call sequence is valid when every `push` happens on a non-full ring
and every `pop` on a non-empty ring (the documented preconditions). -/
def valid : ring α → List (Op α) → Bool
  | _, [] => true
  | r, Op.push x :: ops => !full r && valid (push r x) ops
  | r, Op.pop :: ops => !empty r && valid (pop r).2 ops

/-- Run a call sequence, collecting the values returned by `pop()`. -/
def run : ring α → List (Op α) → ring α × List α
  | r, [] => (r, [])
  | r, Op.push x :: ops => run (push r x) ops
  | r, Op.pop :: ops =>
    let p := pop r
    let q := run p.2 ops
    (q.1, p.1 :: q.2)

/-- The values passed to `push`, in call order. -/
def pushedVals : List (Op α) → List α
  | [] => []
  | Op.push x :: ops => x :: pushedVals ops
  | Op.pop :: ops => pushedVals ops

/-- Number of `pop` calls in a sequence. -/
def numPops : List (Op α) → Nat
  | [] => 0
  | Op.push _ :: ops => numPops ops
  | Op.pop :: ops => numPops ops + 1

/-! ### Basic facts about `segment` -/

theorem segment_length (f : Nat → α) (a b : Nat) :
    (segment f a b).length = b - a := by
  simp [segment]

theorem segment_nil (f : Nat → α) {a b : Nat} (h : b ≤ a) :
    segment f a b = [] := by
  simp [segment, Nat.sub_eq_zero_of_le h]

theorem segment_congr {f g : Nat → α} {a b : Nat}
    (h : ∀ i, a ≤ i → i < b → f i = g i) :
    segment f a b = segment g a b := by
  unfold segment
  apply List.map_congr_left
  intro i hi
  exact h (a + i) (Nat.le_add_right a i) (by have := List.mem_range.1 hi; omega)

theorem segment_snoc (f : Nat → α) {a b : Nat} (h : a ≤ b) :
    segment f a (b + 1) = segment f a b ++ [f b] := by
  unfold segment
  have hb : b + 1 - a = (b - a) + 1 := by omega
  have hab : a + (b - a) = b := by omega
  rw [hb, List.range_succ, List.map_append]
  simp only [List.map_cons, List.map_nil, hab]

theorem segment_cons (f : Nat → α) {a b : Nat} (h : a < b) :
    segment f a b = f a :: segment f (a + 1) b := by
  unfold segment
  have hb : b - a = (b - (a + 1)) + 1 := by omega
  rw [hb, List.range_succ_eq_map, List.map_cons, List.map_map]
  simp only [Nat.add_zero]
  congr 1
  apply List.map_congr_left
  intro i _
  simp only [Function.comp_apply]
  congr 1
  omega

theorem segment_upd_out (f : Nat → α) (j : Nat) (v : α) {a b : Nat}
    (h : j < a ∨ b ≤ j) :
    segment (upd f j v) a b = segment f a b := by
  apply segment_congr
  intro i h1 h2
  unfold upd
  rw [if_neg (by omega)]

theorem segment_upd_snoc (f : Nat → α) (v : α) {a b : Nat} (h : a ≤ b) :
    segment (upd f b v) a (b + 1) = segment f a b ++ [v] := by
  rw [segment_snoc _ h, segment_upd_out f b v (Or.inr le_rfl)]
  simp [upd]

/-! ### Unfolding lemmas on explicit states -/

theorem toList_rec (c : Nat) (f : Nat → α) (lo up : Nat) :
    toList ⟨c, f, lo, up⟩ =
      if up = c then []
      else if lo < up then segment f lo up
      else segment f lo c ++ segment f 0 up := rfl

theorem size_rec (c : Nat) (f : Nat → α) (lo up : Nat) :
    size ⟨c, f, lo, up⟩ =
      if up ≠ c then (if up > lo then up - lo else up + c - lo) else 0 := rfl

theorem push_empty_eq (c : Nat) (f : Nat → α) (lo : Nat) (x : α) :
    push ⟨c, f, lo, c⟩ x = ⟨c, upd f 0 x, 0, if 1 = c then 0 else 1⟩ := by
  simp [push, unset_empty, writeStep]

theorem push_nonempty_eq (c : Nat) (f : Nat → α) (lo up : Nat) (x : α)
    (h : up ≠ c) :
    push ⟨c, f, lo, up⟩ x =
      ⟨c, upd f up x, lo, if up + 1 = c then 0 else up + 1⟩ := by
  simp [push, unset_empty, writeStep, h]

theorem pop_rec (c : Nat) (f : Nat → α) (lo up : Nat) :
    pop ⟨c, f, lo, up⟩ =
      (f lo,
        ⟨c, f, if lo + 1 = c then 0 else lo + 1,
          if (if lo + 1 = c then 0 else lo + 1) = up then c else up⟩) := rfl

theorem toList_mkRing (c : Nat) (f : Nat → α) : toList (mkRing c f) = [] := by
  simp [toList, mkRing]

theorem inv_mkRing (c : Nat) (f : Nat → α) : Inv (mkRing c f) := by
  refine ⟨le_refl c, fun h => ⟨rfl, h⟩, fun h => h⟩

theorem inv_rec {c : Nat} {f : Nat → α} {lo up : Nat}
    (h1 : up ≤ c) (h2 : c = 0 → lo = 0 ∧ up = 0) (h3 : 0 < c → lo < c) :
    Inv (⟨c, f, lo, up⟩ : ring α) := ⟨h1, h2, h3⟩

theorem inv_elim {c : Nat} {f : Nat → α} {lo up : Nat}
    (h : Inv (⟨c, f, lo, up⟩ : ring α)) :
    up ≤ c ∧ (c = 0 → lo = 0 ∧ up = 0) ∧ (0 < c → lo < c) := h

/-- Under the invariant, `size()` returns the number of live elements. -/
theorem length_toList (r : ring α) (hI : Inv r) :
    (toList r).length = size r := by
  obtain ⟨c, f, lo, up⟩ := r
  obtain ⟨hup, hc0, hlo⟩ := inv_elim hI
  rw [toList_rec, size_rec]
  by_cases hE : up = c
  · simp [hE]
  · have hc : 0 < c := by
      rcases Nat.eq_zero_or_pos c with h0 | h0
      · obtain ⟨e1, e2⟩ := hc0 h0
        omega
      · exact h0
    have hl : lo < c := hlo hc
    rw [if_neg hE, if_pos hE]
    by_cases hlu : lo < up
    · rw [if_pos hlu, if_pos hlu, segment_length]
    · rw [if_neg hlu, if_neg hlu]
      simp only [List.length_append, segment_length]
      omega

/-- Effect of a single `push` on the live sequence: the invariant is
preserved, the capacity unchanged, and the pushed value is appended at
the back. -/
theorem push_spec (r : ring α) (x : α) (hI : Inv r) (hf : full r = false) :
    Inv (push r x) ∧ (push r x).capacity = r.capacity ∧
      toList (push r x) = toList r ++ [x] := by
  obtain ⟨c, f, lo, up⟩ := r
  obtain ⟨hup, hc0, hlo⟩ := inv_elim hI
  have hf' : up ≠ lo := by simpa [full] using hf
  by_cases hE : up = c
  · rw [hE] at hf'
    rw [hE]
    have hc : 0 < c := by
      rcases Nat.eq_zero_or_pos c with h0 | h0
      · obtain ⟨e1, _⟩ := hc0 h0
        omega
      · exact h0
    rw [push_empty_eq]
    by_cases h1 : 1 = c
    · simp only [if_pos h1]
      refine ⟨inv_rec (by omega) (by omega) (by omega), by trivial, ?_⟩
      rw [toList_rec, toList_rec, if_pos rfl, if_neg (by omega : ¬ (0:Nat) = c),
        if_neg (by omega : ¬ (0:Nat) < 0), segment_nil (upd f 0 x) (le_refl 0),
        ← h1, show (1:Nat) = 0 + 1 from rfl, segment_upd_snoc f x (le_refl 0),
        segment_nil f (le_refl 0)]
      simp
    · simp only [if_neg h1]
      refine ⟨inv_rec (by omega) (by omega) (by omega), by trivial, ?_⟩
      rw [toList_rec, toList_rec, if_pos rfl,
        if_neg (fun hh : (1:Nat) = c => h1 hh), if_pos Nat.zero_lt_one,
        show (1:Nat) = 0 + 1 from rfl, segment_upd_snoc f x (le_refl 0),
        segment_nil f (le_refl 0)]
  · have hc : 0 < c := by omega
    have hul : up < c := by omega
    have hl : lo < c := hlo hc
    rw [push_nonempty_eq c f lo up x hE]
    by_cases hlu : lo < up
    · by_cases h1 : up + 1 = c
      · simp only [if_pos h1]
        refine ⟨inv_rec (by omega) (by omega) (by omega), by trivial, ?_⟩
        rw [toList_rec, toList_rec, if_neg (by omega : ¬ (0:Nat) = c),
          if_neg (by omega : ¬ lo < 0), if_neg hE, if_pos hlu,
          segment_nil (upd f up x) (le_refl 0), ← h1,
          segment_upd_snoc f x (le_of_lt hlu)]
        simp
      · simp only [if_neg h1]
        refine ⟨inv_rec (by omega) (by omega) (by omega), by trivial, ?_⟩
        rw [toList_rec, toList_rec, if_neg h1, if_pos (by omega : lo < up + 1),
          if_neg hE, if_pos hlu, segment_upd_snoc f x (le_of_lt hlu)]
    · have hwrapped : up < lo := by omega
      have h1 : up + 1 ≠ c := by omega
      simp only [if_neg h1]
      refine ⟨inv_rec (by omega) (by omega) (by omega), by trivial, ?_⟩
      rw [toList_rec, toList_rec, if_neg h1, if_neg (by omega : ¬ lo < up + 1),
        if_neg hE, if_neg hlu,
        segment_upd_out f up x (Or.inl hwrapped),
        segment_upd_snoc f x (Nat.zero_le up)]
      simp

/-- Effect of a single `pop` on the live sequence: the invariant is
preserved, the capacity unchanged, and the returned value is the front
of the live sequence, which loses exactly that element. -/
theorem pop_spec (r : ring α) (hI : Inv r) (he : empty r = false) :
    Inv (pop r).2 ∧ (pop r).2.capacity = r.capacity ∧
      toList r = (pop r).1 :: toList (pop r).2 := by
  obtain ⟨c, f, lo, up⟩ := r
  obtain ⟨hup, hc0, hlo⟩ := inv_elim hI
  have he' : up ≠ c := by simpa [empty] using he
  have hc : 0 < c := by
    rcases Nat.eq_zero_or_pos c with h0 | h0
    · obtain ⟨e1, e2⟩ := hc0 h0
      omega
    · exact h0
  have hul : up < c := by omega
  have hl : lo < c := hlo hc
  rw [pop_rec]
  by_cases hw : lo + 1 = c
  · simp only [if_pos hw]
    by_cases hz : (0:Nat) = up
    · simp only [if_pos hz]
      refine ⟨inv_rec (le_refl c) (by omega) (fun h => h), by trivial, ?_⟩
      rw [toList_rec, toList_rec, if_pos rfl, if_neg he',
        if_neg (by omega : ¬ lo < up), ← hz, segment_nil f (le_refl 0),
        segment_cons f hl, segment_nil f (by omega : c ≤ lo + 1)]
      simp
    · simp only [if_neg hz]
      refine ⟨inv_rec (by omega) (by omega) (by omega), by trivial, ?_⟩
      rw [toList_rec, toList_rec, if_neg he', if_neg he',
        if_neg (by omega : ¬ lo < up), if_pos (by omega : 0 < up),
        segment_cons f hl, segment_nil f (by omega : c ≤ lo + 1)]
      simp
  · simp only [if_neg hw]
    by_cases hz : lo + 1 = up
    · simp only [if_pos hz]
      refine ⟨inv_rec (le_refl c) (by omega) (by omega), by trivial, ?_⟩
      rw [toList_rec, toList_rec, if_pos rfl, if_neg he',
        if_pos (by omega : lo < up), segment_cons f (by omega : lo < up), ← hz,
        segment_nil f (le_refl (lo + 1))]
    · simp only [if_neg hz]
      by_cases hlu : lo < up
      · refine ⟨inv_rec (by omega) (by omega) (by omega), by trivial, ?_⟩
        rw [toList_rec, toList_rec, if_neg he', if_neg he',
          if_pos hlu, if_pos (by omega : lo + 1 < up), segment_cons f hlu]
      · refine ⟨inv_rec (by omega) (by omega) (by omega), by trivial, ?_⟩
        rw [toList_rec, toList_rec, if_neg he', if_neg he',
          if_neg hlu, if_neg (by omega : ¬ lo + 1 < up), segment_cons f hl]
        simp

/-- Main simulation theorem for `push`/`pop` call sequences run under
their preconditions: the invariant and the capacity are maintained, the
collected `pop` results followed by the remaining live elements are
exactly the initial live elements followed by all pushed values, and one
value is collected per `pop` call. -/
theorem run_spec (ops : List (Op α)) :
    ∀ r : ring α, Inv r → valid r ops = true →
      Inv (run r ops).1 ∧ (run r ops).1.capacity = r.capacity ∧
        (run r ops).2 ++ toList (run r ops).1 = toList r ++ pushedVals ops ∧
        (run r ops).2.length = numPops ops := by
  induction ops with
  | nil =>
    intro r hI _
    exact ⟨hI, rfl, by simp [run, pushedVals], by simp [run, numPops]⟩
  | cons op ops ih =>
    intro r hI hv
    cases op with
    | push x =>
      simp only [valid, Bool.and_eq_true, Bool.not_eq_true'] at hv
      obtain ⟨hf, hv⟩ := hv
      obtain ⟨h1, h2, h3⟩ := push_spec r x hI hf
      obtain ⟨i1, i2, i3, i4⟩ := ih (push r x) h1 hv
      refine ⟨?_, ?_, ?_, ?_⟩
      · simpa [run] using i1
      · simp only [run]
        rw [i2, h2]
      · simp only [run, pushedVals]
        rw [i3, h3]
        simp
      · simp only [run, numPops]
        exact i4
    | pop =>
      simp only [valid, Bool.and_eq_true, Bool.not_eq_true'] at hv
      obtain ⟨he, hv⟩ := hv
      obtain ⟨h1, h2, h3⟩ := pop_spec r hI he
      obtain ⟨i1, i2, i3, i4⟩ := ih (pop r).2 h1 hv
      refine ⟨?_, ?_, ?_, ?_⟩
      · simpa [run] using i1
      · simp only [run]
        rw [i2, h2]
      · simp only [run, pushedVals]
        rw [h3]
        simp only [List.cons_append]
        rw [i3]
      · simp only [run, numPops, List.length_cons]
        rw [i4]

/-- Claim C1: FIFO law — for every capacity `C > 0` and every sequence of
`push`/`pop` calls in which each `push` is performed only when `!full()`
and each `pop` only when `!empty()`, the values returned by successive
`pop()` calls equal the values passed to `push`, in push-call order,
restricted to the elements not yet popped: the popped values followed by
the still-live elements are exactly the pushed values in push order, so
the popped values are a prefix of the pushed values. -/
theorem fifo_law (c : Nat) (f : Nat → α) (ops : List (Op α))
    (hc : 0 < c) (hv : valid (mkRing c f) ops = true) :
    (run (mkRing c f) ops).2 ++ toList (run (mkRing c f) ops).1
        = pushedVals ops ∧
    (run (mkRing c f) ops).2
        = (pushedVals ops).take (run (mkRing c f) ops).2.length := by
  obtain ⟨i1, i2, i3, i4⟩ := run_spec ops (mkRing c f) (inv_mkRing c f) hv
  rw [toList_mkRing, List.nil_append] at i3
  refine ⟨i3, ?_⟩
  calc (run (mkRing c f) ops).2
      = ((run (mkRing c f) ops).2 ++ toList (run (mkRing c f) ops).1).take
          (run (mkRing c f) ops).2.length := (List.take_left _ _).symm
    _ = (pushedVals ops).take (run (mkRing c f) ops).2.length := by rw [i3]

/-- Claim C6: for any capacity `C` and any interleaving of `push`/`pop`
respecting the preconditions, after `k` pushes and `j` pops the number of
pops cannot exceed the number of pushes and `size()` returns exactly
`k - j`. -/
theorem size_counts (c : Nat) (f : Nat → α) (ops : List (Op α))
    (hv : valid (mkRing c f) ops = true) :
    numPops ops ≤ (pushedVals ops).length ∧
    size (run (mkRing c f) ops).1 = (pushedVals ops).length - numPops ops := by
  obtain ⟨i1, i2, i3, i4⟩ := run_spec ops (mkRing c f) (inv_mkRing c f) hv
  rw [toList_mkRing, List.nil_append] at i3
  have hlen := congrArg List.length i3
  simp only [List.length_append] at hlen
  rw [length_toList _ i1, i4] at hlen
  exact ⟨by omega, by omega⟩

/-! ### Shape of `reserve` -/

/-- `reserve` on an empty ring with a genuine capacity change: no element
is moved, the new state is empty (upper bound at the new `data_end_`),
lines 188-191 and 196-198. -/
theorem reserve_empty_eq (r : ring α) (n : Nat) (fresh : Nat → α)
    (hne : r.capacity ≠ n) (hemp : r.upper_bond = r.capacity) :
    reserve r n fresh = ⟨n, fresh, 0, n⟩ := by
  rw [reserve, if_neg hne, if_neg (not_not_intro hemp)]

/-- `reserve` on a non-empty ring with a genuine capacity change: the
result has capacity `n`, `lower_bond_` at the new base, and `upper_bond_`
at offset `min (size r) n` — the number of elements moved into the new
storage.  In particular, when `size r ≥ n > 0` the new `upper_bond_`
lands exactly on the new `data_end_`, the empty sentinel. -/
theorem reserve_shape (r : ring α) (n : Nat) (fresh : Nat → α) (hI : Inv r)
    (hne : r.capacity ≠ n) (hemp : ¬ r.upper_bond = r.capacity) :
    (reserve r n fresh).capacity = n ∧ (reserve r n fresh).lower_bond = 0 ∧
      (reserve r n fresh).upper_bond = min (size r) n := by
  obtain ⟨c, f, lo, up⟩ := r
  obtain ⟨hup, hc0, hlo⟩ := inv_elim hI
  have hne' : ¬ c = n := hne
  have hemp' : ¬ up = c := hemp
  have hc : 0 < c := by
    rcases Nat.eq_zero_or_pos c with h0 | h0
    · obtain ⟨e1, e2⟩ := hc0 h0
      omega
    · exact h0
  have hl : lo < c := hlo hc
  have hu : up < c := by omega
  simp only [reserve, size_rec]
  rw [if_neg hne', if_pos hemp', if_pos hemp']
  refine ⟨rfl, rfl, ?_⟩
  split_ifs <;> (try dsimp only at *) <;>
    (try simp only [List.length_append, segment_length]) <;> omega

/-- The representation invariant is preserved by `reserve`. -/
theorem inv_reserve (r : ring α) (n : Nat) (fresh : Nat → α) (hI : Inv r) :
    Inv (reserve r n fresh) := by
  by_cases hne : r.capacity = n
  · rw [reserve, if_pos hne]
    exact hI
  · by_cases hemp : r.upper_bond = r.capacity
    · rw [reserve_empty_eq r n fresh hne hemp]
      exact inv_rec (le_refl n) (fun h => ⟨rfl, h⟩) (fun h => h)
    · obtain ⟨s1, s2, s3⟩ := reserve_shape r n fresh hI hne hemp
      refine ⟨?_, ?_, ?_⟩
      · rw [s1, s3]
        omega
      · intro h
        rw [s1] at h
        rw [s2, s3]
        omega
      · intro h
        rw [s1] at h
        rw [s2, s1]
        omega

/-! ### Shape of the range-push loop -/

/-- The write-and-advance loop keeps both bounds strict slot indices and
never touches the capacity or the lower bound. -/
theorem foldl_writeStep_bounds (vals : List α) :
    ∀ r : ring α, r.lower_bond < r.capacity → r.upper_bond < r.capacity →
      (vals.foldl writeStep r).capacity = r.capacity ∧
        (vals.foldl writeStep r).lower_bond = r.lower_bond ∧
        (vals.foldl writeStep r).upper_bond < r.capacity := by
  induction vals with
  | nil =>
    intro r h1 h2
    exact ⟨rfl, rfl, h2⟩
  | cons v vs ih =>
    intro r h1 h2
    simp only [List.foldl_cons]
    have hstep1 : (writeStep r v).capacity = r.capacity := rfl
    have hstep2 : (writeStep r v).lower_bond = r.lower_bond := rfl
    have hstep3 : (writeStep r v).upper_bond < (writeStep r v).capacity := by
      show (if r.upper_bond + 1 = r.capacity then 0 else r.upper_bond + 1) <
        r.capacity
      split <;> omega
    obtain ⟨e1, e2, e3⟩ := ih (writeStep r v) (by rw [hstep2, hstep1]; exact h1)
      (by rw [hstep1] at hstep3; exact hstep3)
    rw [hstep1] at e1 e3
    rw [hstep2] at e2
    exact ⟨e1, e2, e3⟩

/-- The representation invariant is preserved by the range push under its
documented precondition (the range fits in the free space). -/
theorem inv_pushRange (r : ring α) (vals : List α) (hI : Inv r)
    (hlen : vals.length ≤ r.capacity - size r) : Inv (pushRange r vals) := by
  obtain ⟨c, f, lo, up⟩ := r
  obtain ⟨hup, hc0, hlo⟩ := inv_elim hI
  rcases Nat.eq_zero_or_pos c with h0 | h0
  · obtain ⟨e1, e2⟩ := hc0 h0
    subst h0
    subst e1
    subst e2
    have hlen' : vals.length = 0 := by
      have h := hlen
      simp only [size_rec] at h
      simpa using h
    have hv : vals = [] := List.eq_nil_of_length_eq_zero hlen'
    subst hv
    exact inv_rec (le_refl 0) (fun _ => ⟨rfl, rfl⟩) (fun h => absurd h (lt_irrefl 0))
  · have hl : lo < c := hlo h0
    have hstart : (unset_empty (⟨c, f, lo, up⟩ : ring α)).capacity = c ∧
        (unset_empty (⟨c, f, lo, up⟩ : ring α)).lower_bond < c ∧
        (unset_empty (⟨c, f, lo, up⟩ : ring α)).upper_bond < c := by
      by_cases hE : up = c
      · have he : unset_empty (⟨c, f, lo, up⟩ : ring α) = ⟨c, f, 0, 0⟩ := by
          simp [unset_empty, hE]
        rw [he]
        exact ⟨rfl, h0, h0⟩
      · have he : unset_empty (⟨c, f, lo, up⟩ : ring α) = ⟨c, f, lo, up⟩ := by
          simp [unset_empty, hE]
        rw [he]
        refine ⟨rfl, hl, ?_⟩
        show up < c
        omega
    obtain ⟨e0, e1, e2⟩ := hstart
    obtain ⟨g1, g2, g3⟩ := foldl_writeStep_bounds vals (unset_empty ⟨c, f, lo, up⟩)
      (by rw [e0]; exact e1) (by rw [e0]; exact e2)
    rw [e0] at g1 g3
    refine ⟨?_, ?_, ?_⟩
    · rw [pushRange, g1]
      exact le_of_lt g3
    · intro h
      rw [pushRange, g1] at h
      omega
    · intro _
      rw [pushRange, g1, g2]
      exact e1

/-! ### Reachable states -/

/-- States reachable through the public interface used under its
documented preconditions: either constructor, `push` on a non-full ring,
`pop` on a non-empty ring, `reserve` with any argument, and the range
push with a range that fits in the free space.  (The default constructor
yields exactly the state `mkRing 0 f`.) -/
inductive Reachable : ring α → Prop where
  | init (c : Nat) (f : Nat → α) : Reachable (mkRing c f)
  | step_push (r : ring α) (x : α) : Reachable r → full r = false →
      Reachable (push r x)
  | step_pop (r : ring α) : Reachable r → empty r = false →
      Reachable (pop r).2
  | step_reserve (r : ring α) (n : Nat) (fresh : Nat → α) : Reachable r →
      Reachable (reserve r n fresh)
  | step_range (r : ring α) (vals : List α) : Reachable r →
      vals.length ≤ r.capacity - size r → Reachable (pushRange r vals)

/-- Every reachable state satisfies the representation invariant. -/
theorem reachable_inv (r : ring α) (h : Reachable r) : Inv r := by
  induction h with
  | init c f => exact inv_mkRing c f
  | step_push r x _ hf ih => exact (push_spec r x ih hf).1
  | step_pop r _ he ih => exact (pop_spec r ih he).1
  | step_reserve r n fresh _ ih => exact inv_reserve r n fresh ih
  | step_range r vals _ hlen ih => exact inv_pushRange r vals ih hlen

/-- `data()` on a reachable state that is neither empty nor full does
return spans covering exactly the live elements (the empty and full
states are precisely where it does not; see the dedicated theorems). -/
theorem data_spec_nonfull (r : ring α) (hI : Inv r) (he : empty r = false)
    (hf : full r = false) :
    dataLen r = size r ∧ dataList r = toList r := by
  obtain ⟨c, f, lo, up⟩ := r
  obtain ⟨hup, hc0, hlo⟩ := inv_elim hI
  have he' : up ≠ c := by simpa [empty] using he
  have hf' : up ≠ lo := by simpa [full] using hf
  have hc : 0 < c := by
    rcases Nat.eq_zero_or_pos c with h0 | h0
    · obtain ⟨e1, e2⟩ := hc0 h0
      omega
    · exact h0
  have hl : lo < c := hlo hc
  by_cases hgt : lo > up
  · have hd : data (⟨c, f, lo, up⟩ : ring α) = ((lo, c), (0, up)) := by
      simp [data, hgt]
    constructor
    · simp only [dataLen, hd]
      rw [size_rec, if_pos he', if_neg (by omega : ¬ up > lo)]
      omega
    · simp only [dataList, hd]
      rw [toList_rec, if_neg he', if_neg (by omega : ¬ lo < up)]
  · have hd : data (⟨c, f, lo, up⟩ : ring α) = ((lo, up), (0, 0)) := by
      simp [data, hgt]
    constructor
    · simp only [dataLen, hd]
      rw [size_rec, if_pos he', if_pos (by omega : up > lo)]
      omega
    · simp only [dataList, hd]
      rw [toList_rec, if_neg he', if_pos (by omega : lo < up)]
      rw [segment_nil f (le_refl 0), List.append_nil]

/-! ### Concrete states and call sequences used as evaluation inputs -/

def store0 : Nat → Nat := fun _ => 0

/-- Capacity-4 ring holding the live sequence `[1, 2, 3]` (three pushes on
a fresh ring). -/
def sampleR : ring Nat := push (push (push (mkRing 4 store0) 1) 2) 3

/-- Capacity-2 ring filled to the brim: `full()` holds, live sequence
`[7, 8]`. -/
def fullR : ring Nat := push (push (mkRing 2 store0) 7) 8

def opsA : List (Op Nat) := [Op.push 5, Op.push 7, Op.pop, Op.push 9, Op.pop]

def opsB : List (Op Nat) := [Op.push 4, Op.push 6, Op.pop]

/-! ### Claim theorems -/

/-- Claim C2 (code bug, evaluated at the failing input): `reserve(n)` with
`n == size()` (here 3, on a capacity-4 ring holding `[1, 2, 3]`) moves all
three live elements into the new storage but puts `upper_bond_` at
`data + 3 == data_end_`, the empty sentinel: the resulting buffer reports
`capacity() == 3` but `size() == 0` and `empty() == true`, and the live
sequence is lost, although the claim requires `size()` unchanged (3) and
an unchanged subsequent pop order. -/
theorem reserve_same_size_bug :
    size sampleR = 3 ∧ toList sampleR = [1, 2, 3] ∧ sampleR.capacity = 4 ∧
      (reserve sampleR 3 store0).capacity = 3 ∧
      size (reserve sampleR 3 store0) = 0 ∧
      empty (reserve sampleR 3 store0) = true ∧
      toList (reserve sampleR 3 store0) = [] := by
  decide

/-- Claim C3 (code bug, evaluated at the failing input): `reserve(2)` on a
capacity-4 ring holding `[1, 2, 3]` does move the two oldest elements
(1 and 2) into the new storage — slots 0 and 1 of the new buffer hold
them — but again leaves `upper_bond_` at `data + 2 == data_end_`, the
empty sentinel, so the resulting buffer reports `size() == 0` and has an
empty live sequence, although the claim requires `size() == 2` with the
two oldest elements retained and poppable in order. -/
theorem reserve_shrink_bug :
    size sampleR = 3 ∧ toList sampleR = [1, 2, 3] ∧
      (reserve sampleR 2 store0).capacity = 2 ∧
      size (reserve sampleR 2 store0) = 0 ∧
      empty (reserve sampleR 2 store0) = true ∧
      toList (reserve sampleR 2 store0) = [] ∧
      (reserve sampleR 2 store0).buf 0 = 1 ∧
      (reserve sampleR 2 store0).buf 1 = 2 := by
  decide

/-- Claim C4 (code bug, evaluated at the failing input): on a full ring
(`capacity == 2`, live sequence `[7, 8]`, `lower_bond_ == upper_bond_`)
the wrap test `lower_bond_ > upper_bond_` of `data()` is false, so
`data()` returns the single span `(lower_bond_, upper_bond_)` of length 0
plus a null span: the spans describe 0 elements while `size()` is 2,
contradicting the claim that the spans' total length equals `size()` in
every reachable state including full. -/
theorem data_full_bug :
    full fullR = true ∧ size fullR = 2 ∧ toList fullR = [7, 8] ∧
      data fullR = ((0, 0), (0, 0)) ∧ dataLen fullR = 0 ∧
      dataList fullR = [] := by
  decide

/-- Claim C5 (code bug, evaluated at a failing input): `push(begin, end)`
with an empty range (`begin == end`, length 0 ≤ free space) on an empty
capacity-2 ring is claimed to be equivalent to zero single pushes, i.e. a
no-op.  But the code calls `unset_empty()` unconditionally before the
loop, which resets both bounds to the base: the ring then has
`upper_bond_ == lower_bond_` and reports `full() == true` and
`size() == capacity() == 2` with only uninitialized slots.  (For
non-empty ranges the loop body, line 83, additionally constructs
`T{ begin++ }` from the iterator pointer rather than from the element
`*begin`, which does not even compile for ordinary element types such as
the test harness's `obj`.) -/
theorem push_range_empty_bug :
    empty (mkRing 2 store0) = true ∧ size (mkRing 2 store0) = 0 ∧
      full (mkRing 2 store0) = false ∧
      full (pushRange (mkRing 2 store0) []) = true ∧
      empty (pushRange (mkRing 2 store0) []) = false ∧
      size (pushRange (mkRing 2 store0) []) = 2 := by
  decide

/-- Claim C7: every buffer with `capacity() == 0` — the default-constructed
state (which is `mkRing 0 f`, see the C10 theorem) or any invariant state
brought to capacity 0 by `reserve(0)` — satisfies `empty() == true`,
`full() == true` and `size() == 0` simultaneously. -/
theorem cap_zero_degenerate (r : ring α) (f : Nat → α) (hI : Inv r) :
    (r.capacity = 0 → empty r = true ∧ full r = true ∧ size r = 0) ∧
    ((reserve r 0 f).capacity = 0 ∧ empty (reserve r 0 f) = true ∧
      full (reserve r 0 f) = true ∧ size (reserve r 0 f) = 0) := by
  constructor
  · intro h0
    have hI2 := hI
    obtain ⟨hup, hc0, hlo⟩ := hI2
    obtain ⟨e1, e2⟩ := hc0 h0
    refine ⟨?_, ?_, ?_⟩
    · simp [empty, e2, h0]
    · simp [full, e2, e1]
    · simp [size, e2, h0]
  · by_cases hne : r.capacity = 0
    · have hr : reserve r 0 f = r := by rw [reserve, if_pos hne]
      rw [hr]
      have hI2 := hI
      obtain ⟨hup, hc0, hlo⟩ := hI2
      obtain ⟨e1, e2⟩ := hc0 hne
      refine ⟨hne, ?_, ?_, ?_⟩
      · simp [empty, e2, hne]
      · simp [full, e2, e1]
      · simp [size, e2, hne]
    · by_cases hemp : r.upper_bond = r.capacity
      · rw [reserve_empty_eq r 0 f hne hemp]
        exact ⟨rfl, rfl, rfl, rfl⟩
      · obtain ⟨s1, s2, s3⟩ := reserve_shape r 0 f hI hne hemp
        have s3' : (reserve r 0 f).upper_bond = 0 := by
          rw [s3]
          exact Nat.min_zero _
        refine ⟨s1, ?_, ?_, ?_⟩
        · simp [empty, s3', s1]
        · simp [full, s3', s2]
        · simp [size, s3', s1]

/-- Claim C8: when the allocation performed inside `reserve` fails (line
141, the first statement of the mutating branch, executed whenever the new
capacity is nonzero), the failure propagates to the caller and the buffer
is left exactly in its pre-call state — no field written, no element moved
or destroyed; likewise a failing allocation in the sized constructor (line
30, before any other initialization) produces no object at all. -/
theorem alloc_failure_no_mutation (r : ring α) (n : Nat)
    (h1 : n ≠ r.capacity) (h2 : n ≠ 0) :
    reserveTry r n none = (r, false) ∧
      mkRingTry n (none : Option (Nat → α)) = none := by
  refine ⟨?_, rfl⟩
  rw [reserveTry, if_neg (fun h => h1 h.symm), if_neg h2]

/-- Claim C9 (implicit invariant): in every state reachable through the
public operations used under their preconditions, a buffer with positive
capacity never has `empty()` and `full()` simultaneously true, and
`lower_bond_` never sits on `data_end_` (offset `capacity`) — the tail
sentinel is never a valid insertion position for the head. -/
theorem no_empty_and_full (r : ring α) (hR : Reachable r)
    (hc : 0 < r.capacity) :
    ¬(empty r = true ∧ full r = true) ∧ r.lower_bond ≠ r.capacity := by
  obtain ⟨hup, hc0, hlo⟩ := reachable_inv r hR
  have hl := hlo hc
  refine ⟨?_, by omega⟩
  rintro ⟨he, hf⟩
  simp only [empty, beq_iff_eq] at he
  simp only [full, beq_iff_eq] at hf
  omega

/-- Claim C10 (implicit): the sized constructor called with capacity 0
produces exactly the default-constructed state: `capacity() == 0`,
`size() == 0`, `empty()` and `full()` both true, with `lower_bond_` and
`upper_bond_` both coinciding with `data_end_` (offset `capacity = 0`). -/
theorem sized_ctor_zero_eq_default (f : Nat → α) :
    mkRing 0 f = ring0 f ∧ (mkRing 0 f).capacity = 0 ∧
      size (mkRing 0 f) = 0 ∧ empty (mkRing 0 f) = true ∧
      full (mkRing 0 f) = true ∧
      (mkRing 0 f).lower_bond = (mkRing 0 f).capacity ∧
      (mkRing 0 f).upper_bond = (mkRing 0 f).capacity :=
  ⟨rfl, rfl, rfl, rfl, rfl, rfl, rfl⟩

/-! ### Witnesses -/

theorem fifo_law_witness :
    ((0:Nat) < 3 ∧ valid (mkRing 3 store0) opsA = true) ∧
    ((run (mkRing 3 store0) opsA).2 ++ toList (run (mkRing 3 store0) opsA).1
        = pushedVals opsA ∧
      (run (mkRing 3 store0) opsA).2
        = (pushedVals opsA).take (run (mkRing 3 store0) opsA).2.length) :=
  ⟨⟨by decide, by decide⟩, fifo_law 3 store0 opsA (by decide) (by decide)⟩

theorem size_counts_witness :
    valid (mkRing 2 store0) opsB = true ∧
    (numPops opsB ≤ (pushedVals opsB).length ∧
      size (run (mkRing 2 store0) opsB).1
        = (pushedVals opsB).length - numPops opsB) :=
  ⟨by decide, size_counts 2 store0 opsB (by decide)⟩

theorem cap_zero_degenerate_witness :
    Inv sampleR ∧
    ((sampleR.capacity = 0 → empty sampleR = true ∧ full sampleR = true ∧
        size sampleR = 0) ∧
      ((reserve sampleR 0 store0).capacity = 0 ∧
        empty (reserve sampleR 0 store0) = true ∧
        full (reserve sampleR 0 store0) = true ∧
        size (reserve sampleR 0 store0) = 0)) :=
  ⟨by decide, cap_zero_degenerate sampleR store0 (by decide)⟩

theorem alloc_failure_no_mutation_witness :
    ((5:Nat) ≠ (mkRing 2 store0).capacity ∧ (5:Nat) ≠ 0) ∧
    (reserveTry (mkRing 2 store0) 5 none = (mkRing 2 store0, false) ∧
      mkRingTry 5 (none : Option (Nat → Nat)) = none) :=
  ⟨⟨by decide, by decide⟩,
    alloc_failure_no_mutation (mkRing 2 store0) 5 (by decide) (by decide)⟩

theorem no_empty_and_full_witness :
    (0 < (mkRing 2 store0).capacity) ∧
    (¬(empty (mkRing 2 store0) = true ∧ full (mkRing 2 store0) = true) ∧
      (mkRing 2 store0).lower_bond ≠ (mkRing 2 store0).capacity) :=
  ⟨by decide,
    no_empty_and_full (mkRing 2 store0) (Reachable.init 2 store0) (by decide)⟩

end RingBuf
